import Mathlib

/-!
Shallow embedding of the KaniTTS backend core — `backend/tts_service.py`,
`backend/downloader.py`, `backend/config.py`, `backend/main.py` — together
with proofs of the specification's claims about it.

Text is modelled as `List Char`; Python strings at API boundaries (model keys,
error messages, filenames) as `String`.  Whitespace is the ASCII whitespace
set recognised by Python's `str.split()` and the regex class `\s` on ASCII
input.  Audio sample buffers are modelled as `List Int` (the element type is
irrelevant to the claims, which concern lengths and identity of buffers).
The opaque model runtime, the filesystem and the network are modelled as
environment parameters, as the spec prescribes for external collaborators.
-/

/-! ### Text chunker: `tts_service.split_into_sentences` -/

/-- ASCII whitespace, as matched by Python `str.split()` and regex `\s`:
space, tab, newline, carriage return, vertical tab, form feed. -/
def isWs (c : Char) : Bool :=
  c == ' ' || c == '\t' || c == '\n' || c == '\r' ||
    c == Char.ofNat 11 || c == Char.ofNat 12

/-- `MAX_CHUNK_CHARS = 200` from `tts_service.py`. -/
def MAX_CHUNK_CHARS : Nat := 200

/-- Sentence-terminal punctuation of the regex `(?<=[.!?])\s+`. -/
def sentEnd (c : Char) : Bool := c == '.' || c == '!' || c == '?'

/-- Clause separators of the regex `(?<=[,;–—])\s+` (comma, semicolon,
en dash, em dash — note: not the ASCII hyphen). -/
def clauseSep (c : Char) : Bool := c == ',' || c == ';' || c == '–' || c == '—'

/-- Lookbehind test: does the previous character (if any) satisfy `p`? -/
def prevP (p : Char → Bool) : Option Char → Bool
  | some c => p c
  | none => false

/-- Prepend a character onto the first piece of a piece list. -/
def consHead (c : Char) : List (List Char) → List (List Char)
  | [] => [[c]]
  | f :: rs => (c :: f) :: rs

/-- One left-to-right scan implementing `re.split(r'(?<=[X])\s+', s)` for a
character class `X` given by `p`: a split point is a maximal whitespace run
whose first character is preceded by a character satisfying `p`; the run is
consumed (`skip = true` while inside a consumed run).  `prev` is the previous
scanned character (the lookbehind). -/
def reSplGo (p : Char → Bool) : Bool → Option Char → List Char → List (List Char)
  | _, _, [] => [[]]
  | skip, prev, c :: rest =>
    if skip && isWs c then reSplGo p true none rest
    else if isWs c && prevP p prev then [] :: reSplGo p true none rest
    else consHead c (reSplGo p false (some c) rest)

/-- `re.split(r'(?<=[X])\s+', s)` with lookbehind class given by `p`. -/
def reSplit (p : Char → Bool) (s : List Char) : List (List Char) :=
  reSplGo p false none s

/-- Python `str.split()`: split on whitespace runs, discarding empty pieces.
`cur` accumulates the current word reversed. -/
def pySplitAux : List Char → List Char → List (List Char)
  | [], cur => if cur.isEmpty then [] else [cur.reverse]
  | c :: rest, cur =>
    if isWs c then
      if cur.isEmpty then pySplitAux rest [] else cur.reverse :: pySplitAux rest []
    else pySplitAux rest (c :: cur)

/-- Python `text.split()`. -/
def pySplit (s : List Char) : List (List Char) := pySplitAux s []

/-- Python `" ".join(words)`. -/
def joinSp : List (List Char) → List Char
  | [] => []
  | [w] => w
  | w :: ws => w ++ ' ' :: joinSp ws

/-- `" ".join(text.split())` — whitespace normalisation: collapse every
whitespace run to a single space and trim both ends. -/
def normWs (s : List Char) : List Char := joinSp (pySplit s)

/-- Python `str.strip()`: drop whitespace from both ends. -/
def stripF (s : List Char) : List Char :=
  ((s.dropWhile isWs).reverse.dropWhile isWs).reverse

/-- The greedy packing loop of `split_into_sentences` over the clause-level
sub-parts of one oversized sentence (`tts_service.py` lines 43–53):
`cur` is `current_chunk`, `acc` is the chunk list built so far. -/
def packLoop : List (List Char) → List Char → List (List Char) → List (List Char)
  | [], cur, acc => if cur.isEmpty then acc else acc ++ [cur]
  | part :: ps, cur, acc =>
    if cur.length + part.length + 1 ≤ MAX_CHUNK_CHARS then
      packLoop ps (if cur.isEmpty then part else stripF (cur ++ ' ' :: part)) acc
    else
      packLoop ps part (if cur.isEmpty then acc else acc ++ [cur])

/-- The per-sentence step of the chunk loop (`tts_service.py` lines 37–53):
a sentence within the budget is kept whole, a longer one is split on clause
separators and greedily repacked by `packLoop` (starting from an empty
`current_chunk`). -/
def sentChunks (s : List Char) : List (List Char) :=
  if s.length ≤ MAX_CHUNK_CHARS then [s]
  else packLoop (reSplit clauseSep s) [] []

/-- `tts_service.split_into_sentences`: normalise whitespace, split on
sentence-terminal punctuation followed by whitespace, strip and drop empty
pieces, then secondarily split any sentence longer than `MAX_CHUNK_CHARS` on
clause separators and greedily repack; fall back to the whole (normalised)
text when no chunk was produced. -/
def split_into_sentences (text : List Char) : List (List Char) :=
  let t := normWs text
  let sentences := ((reSplit sentEnd t).map stripF).filter (fun s => !s.isEmpty)
  let chunks := sentences.foldl (fun acc s => acc ++ sentChunks s) []
  if chunks.isEmpty then [t] else chunks

/-! ### Audio stitching: `TTSService.generate`, `config.SAMPLE_RATE` -/

/-- `SAMPLE_RATE = 22050` from `config.py`. -/
def SAMPLE_RATE : Nat := 22050

/-- `int(SAMPLE_RATE * 0.15)` — the 150 ms silence length in samples.
`22050 * 0.15 = 3307.5` (the double rounding error is far below `0.5`),
so Python's `int(...)` truncation gives `3307`, as does this Nat division. -/
def silenceLen : Nat := SAMPLE_RATE * 15 / 100

/-- `np.zeros(int(SAMPLE_RATE * 0.15))` — the inserted silence block. -/
def silence : List Int := List.replicate silenceLen 0

/-- The `combined_parts` list: each audio chunk followed by `silence`
except after the last chunk (`tts_service.py` lines 166–170). -/
def stitchParts : List (List Int) → List (List Int)
  | [] => []
  | [a] => [a]
  | a :: b :: rest => a :: silence :: stitchParts (b :: rest)

/-- The stitch step of `TTSService.generate` (lines 161–171): a single chunk
is used as-is, otherwise the chunks are concatenated with `silence` between
consecutive chunks.  (The source never reaches this point with zero chunks;
`np.concatenate([])` would raise.) -/
def combineAudio : List (List Int) → List Int
  | [a] => a
  | arrays => (stitchParts arrays).flatten

/-! ### Model registry: `TTSService` -/

/-- The key set of the `MODELS` table in `config.py`. -/
def validKey (k : String) : Bool := k == "en" || k == "de"

/-- `TTSService.DEFAULT_SPEAKERS.get`. -/
def DEFAULT_SPEAKERS (k : String) : Option String :=
  if k == "en" then some "jenny"
  else if k == "de" then some "thorsten"
  else none

/-- The mutable state of the `TTSService` singleton.  A loaded runtime handle
is opaque; it is modelled by the identity `nextHandle` had when it was
constructed, so that "no new handle was constructed" is expressible. -/
structure TTSService where
  models : List (String × Nat)
  current_model_key : Option String
  nextHandle : Nat
deriving Repr, DecidableEq

/-- `TTSService.load_model`.  `downloaded` models the filesystem predicate
`is_model_downloaded`; the `KaniTTS(...)` construction is modelled as minting
the fresh handle `st.nextHandle` (construction faults are outside the claims
settled here). -/
def load_model (downloaded : String → Bool) (st : TTSService) (key : String) :
    Except String (TTSService × Bool) :=
  if !validKey key then .error ("Unknown model: " ++ key)
  else if !downloaded key then .error ("Model " ++ key ++ " is not downloaded")
  else if (st.models.lookup key).isSome then
    .ok ({ st with current_model_key := some key }, true)
  else
    .ok ({ models := st.models ++ [(key, st.nextHandle)],
           current_model_key := some key,
           nextHandle := st.nextHandle + 1 }, true)

/-- `TTSService.unload_model`: delete the handle if present and clear the
current marker if it pointed at this key; return `false` otherwise. -/
def unload_model (st : TTSService) (key : String) : TTSService × Bool :=
  if (st.models.lookup key).isSome then
    ({ models := st.models.filter (fun p => p.1 != key),
       current_model_key :=
         if st.current_model_key == some key then none else st.current_model_key,
       nextHandle := st.nextHandle }, true)
  else (st, false)

/-- `TTSService.generate` (`tts_service.py` lines 121–188).  `synth` models the
opaque model capability `model(chunk, speaker_id)`; `fname` the
`uuid.uuid4().hex[:8]`-generated filename; `outputs` the output directory.
On success the combined audio is persisted under `fname` and returned with
the filename. -/
def generate (downloaded : String → Bool)
    (synth : List Char → Option String → List Int) (fname : String)
    (st : TTSService) (outputs : List (String × List Int))
    (text : List Char) (key : String) (speaker : Option String) :
    Except String (TTSService × List (String × List Int) × List Int × String) :=
  if (stripF text).isEmpty then .error "Text cannot be empty"
  else
    match (if (st.models.lookup key).isSome then Except.ok (st, true)
           else load_model downloaded st key) with
    | .error e => .error e
    | .ok (st1, _) =>
      let speakerId := match speaker with
        | some s => some s
        | none => DEFAULT_SPEAKERS key
      let chunks := split_into_sentences text
      let audioArrays := chunks.map (fun c => synth c speakerId)
      let combined := combineAudio audioArrays
      .ok (st1, outputs ++ [(fname, combined)], combined, fname)

/-! ### Downloader: `downloader.py` -/

/-- `DownloadProgress` (all counters are Python ints). -/
structure DownloadProgress where
  model_key : String
  total_size : Int
  downloaded_size : Int
  current_file : String
  status : String
  error_message : Option String
  files_total : Int
  files_downloaded : Int
deriving Repr, DecidableEq

/-- `DownloadProgress.__init__`. -/
def initProgress (key : String) : DownloadProgress :=
  { model_key := key, total_size := 0, downloaded_size := 0, current_file := "",
    status := "pending", error_message := none,
    files_total := 0, files_downloaded := 0 }

/-- `DownloadProgress.progress_percent`: `0.0` when `total_size == 0`,
otherwise `min(100.0, downloaded_size / total_size * 100)`.  Real-number
arithmetic is modelled over `ℚ`. -/
def progress_percent (p : DownloadProgress) : ℚ :=
  if p.total_size = 0 then 0
  else min 100 ((p.downloaded_size : ℚ) / (p.total_size : ℚ) * 100)

/-- The degenerate full-progress snapshot emitted when the model is already
downloaded: `status = "completed"`, `downloaded_size = total_size = 1`. -/
def completedSnap (key : String) : DownloadProgress :=
  { initProgress key with status := "completed", downloaded_size := 1, total_size := 1 }

/-- The download fault categories caught in `download_model_with_progress`:
`GatedRepoError`, `RepositoryNotFoundError`, and any other exception. -/
inductive DlFault where
  | gated : DlFault
  | notFound : DlFault
  | other : String → DlFault
deriving Repr, DecidableEq

/-- The user-facing message each fault category is mapped to. -/
def faultMessage : DlFault → String
  | .gated => "This model requires authentication. Please log in to Hugging Face."
  | .notFound => "Model repository not found."
  | .other m => m

/-- Environment of one `download_model_with_progress` run: the filesystem
predicate `is_model_downloaded`, the result of the `repo_info` metadata fetch
(sibling sizes, `None` modelled as `none`), the `(dir size, file count)`
samples observed by the polling loop while the transfer is unresolved, and
the transfer outcome. -/
structure DlEnv where
  downloaded : String → Bool
  meta : Except DlFault (List (Option Int))
  pollSamples : List (Int × Int)
  transfer : Except DlFault Unit

/-- One event of the SSE stream: either the raw
`{'status': ..., 'error_message': ...}` dict yielded for an unknown model
key, or a full `progress.to_dict()` snapshot. -/
inductive DlEvent where
  | raw : String → String → DlEvent
  | snap : DownloadProgress → DlEvent
deriving Repr, DecidableEq

/-- The status field carried by an event. -/
def DlEvent.status : DlEvent → String
  | .raw s _ => s
  | .snap p => p.status

/-- `download_model_with_progress`, modelled as the full list of emitted
stream events paired with whether the background transfer was started
(`snapshot_download` submitted to the executor). -/
def download_model_with_progress (env : DlEnv) (key : String) :
    List DlEvent × Bool :=
  if !validKey key then ([.raw "error" "Unknown model"], false)
  else
    let p0 := initProgress key
    if env.downloaded key then
      ([.snap (completedSnap key)], false)
    else
      let p1 := { p0 with status := "downloading" }
      match env.meta with
      | .error f =>
        ([.snap p1,
          .snap { p1 with status := "error", error_message := some (faultMessage f) }],
         false)
      | .ok siblings =>
        let p2 := { p1 with
          files_total := (siblings.length : Int),
          total_size := (siblings.map (fun s => s.getD 0)).sum }
        let pollSnaps := env.pollSamples.map (fun sm =>
          DlEvent.snap { p2 with downloaded_size := sm.1, files_downloaded := sm.2 })
        let pLast := env.pollSamples.foldl
          (fun p sm => { p with downloaded_size := sm.1, files_downloaded := sm.2 }) p2
        let finalEv := match env.transfer with
          | .ok _ =>
            DlEvent.snap { pLast with status := "completed", downloaded_size := pLast.total_size }
          | .error f =>
            DlEvent.snap { pLast with status := "error", error_message := some (faultMessage f) }
        (.snap p1 :: .snap p2 :: pollSnaps ++ [finalEv], true)

/-! ### Audio retrieval/deletion endpoints: `main.py` -/

/-- Does `pat` occur as a leading segment of `s`? -/
def leadMatch : List Char → List Char → Bool
  | [], _ => true
  | _ :: _, [] => false
  | a :: pa, b :: sb => a == b && leadMatch pa sb

/-- Python substring containment `pat in s`. -/
def hasSubstr (pat : List Char) : List Char → Bool
  | [] => leadMatch pat []
  | b :: rest => leadMatch pat (b :: rest) || hasSubstr pat rest

/-- The traversal guard shared by `get_audio` and `delete_audio`:
`".." in filename or "/" in filename`. -/
def badFilename (f : List Char) : Bool :=
  hasSubstr ['.', '.'] f || hasSubstr ['/'] f

/-- `GET /api/audio/{filename}` (`main.py` lines 194–210): reject traversal
with 400 before touching the filesystem, 404 if absent, else serve the file.
`files` models the output directory contents. -/
def get_audio (files : List (List Char)) (f : List Char) :
    Except Nat (List Char) :=
  if badFilename f then .error 400
  else if files.contains f then .ok f
  else .error 404

/-- `DELETE /api/audio/{filename}` (`main.py` lines 213–225): reject traversal
with 400 before touching the filesystem; otherwise remove the file if present
(`success := true`) or report `success := false`.  Returns the resulting
directory contents alongside the response. -/
def delete_audio (files : List (List Char)) (f : List Char) :
    List (List Char) × Except Nat Bool :=
  if badFilename f then (files, .error 400)
  else if files.contains f then (files.erase f, .ok true)
  else (files, .ok false)

/-! ### Sanity checks of the embedding on the spec's concrete scenarios -/

example :
    split_into_sentences "Hello world. This is a test!".toList =
      ["Hello world.".toList, "This is a test!".toList] := by decide

example : split_into_sentences "   ".toList = [[]] := by decide

example : silenceLen = 3307 := by decide

example : combineAudio [[1, 2], [3]] = [1, 2] ++ silence ++ [3] := rfl

example : combineAudio [[1, 2]] = [1, 2] := rfl

/-! ### Helper lemmas: stitching -/

theorem stitchParts_flatten_length (l : List (List Int)) (h : l ≠ []) :
    ((stitchParts l).flatten).length
      = (l.map List.length).sum + (l.length - 1) * silenceLen := by
  match l with
  | [a] => simp [stitchParts]
  | a :: b :: rest =>
    have ih := stitchParts_flatten_length (b :: rest) (by simp)
    simp only [stitchParts, List.flatten_cons, List.length_append, ih,
      List.map_cons, List.sum_cons, List.length_cons, List.length_replicate, silence,
      Nat.add_sub_cancel]
    ring

theorem combineAudio_eq_flatten (l : List (List Int)) (h : l ≠ []) :
    combineAudio l = (stitchParts l).flatten := by
  match l with
  | [a] => simp [combineAudio, stitchParts]
  | a :: b :: rest => rfl

/-! ### Claim theorems: C2, C4, C9 -/

/-- C2. For every list of `N ≥ 1` audio chunks, the stitched output of
`TTSService.generate` has exactly `sum (len chunkᵢ) + (N - 1) * silence_len`
samples, where `silence_len = int(SAMPLE_RATE * 0.15)` is the number of
samples in 150 ms at the configured sample rate; a single chunk is used
as-is, so silence is inserted only between consecutive chunks and never
after the final one. -/
theorem stitch_length_exact (arrays : List (List Int)) (h : arrays ≠ []) :
    (combineAudio arrays).length
        = (arrays.map List.length).sum + (arrays.length - 1) * silenceLen
      ∧ silenceLen = SAMPLE_RATE * 15 / 100
      ∧ ∀ a : List Int, combineAudio [a] = a := by
  refine ⟨?_, rfl, fun a => rfl⟩
  rw [combineAudio_eq_flatten arrays h]
  exact stitchParts_flatten_length arrays h

/-- Witness for C2 at the concrete chunk list `[[5], [7, 8]]`. -/
theorem stitch_length_exact_witness :
    ([[5], [7, 8]] : List (List Int)) ≠ []
      ∧ ((combineAudio [[5], [7, 8]]).length
            = ([[5], [7, 8]].map (List.length (α := Int))).sum + (2 - 1) * silenceLen
          ∧ silenceLen = SAMPLE_RATE * 15 / 100
          ∧ ∀ a : List Int, combineAudio [a] = a) :=
  ⟨by decide, stitch_length_exact [[5], [7, 8]] (by decide)⟩

/-- C4. For every `DownloadProgress` state with non-negative
`total_size` and `downloaded_size`, `progress_percent` lies in `[0, 100]`,
and when `total_size = 0` it is `0` — the guard returns before any division
is attempted. -/
theorem progress_percent_in_range (p : DownloadProgress)
    (ht : 0 ≤ p.total_size) (hd : 0 ≤ p.downloaded_size) :
    0 ≤ progress_percent p ∧ progress_percent p ≤ 100
      ∧ (p.total_size = 0 → progress_percent p = 0) := by
  unfold progress_percent
  by_cases h : p.total_size = 0
  · simp [h]
  · simp only [h, if_false]
    refine ⟨le_min (by norm_num) ?_, min_le_left _ _, fun hc => hc.elim⟩
    have h1 : (0 : ℚ) ≤ (p.downloaded_size : ℚ) := by exact_mod_cast hd
    have h2 : (0 : ℚ) ≤ (p.total_size : ℚ) := by exact_mod_cast ht
    have := div_nonneg h1 h2
    nlinarith

/-- Witness for C4 at the freshly initialised progress state. -/
theorem progress_percent_in_range_witness :
    0 ≤ (initProgress "en").total_size ∧ 0 ≤ (initProgress "en").downloaded_size
      ∧ (0 ≤ progress_percent (initProgress "en")
          ∧ progress_percent (initProgress "en") ≤ 100
          ∧ ((initProgress "en").total_size = 0
              → progress_percent (initProgress "en") = 0)) :=
  ⟨by decide, by decide,
    progress_percent_in_range (initProgress "en") (by decide) (by decide)⟩

/-- C9. For every filename supplied to the audio retrieval or deletion
endpoint, if it contains `".."` or the path separator `"/"`, the request is
rejected with the invalid-filename error (HTTP 400) before the filesystem is
consulted: retrieval errors without an existence check and deletion returns
the directory contents unchanged. -/
theorem audio_traversal_rejected (files : List (List Char)) (f : List Char)
    (h : hasSubstr ['.', '.'] f = true ∨ hasSubstr ['/'] f = true) :
    get_audio files f = .error 400
      ∧ delete_audio files f = (files, .error 400) := by
  have hb : badFilename f = true := by
    unfold badFilename
    rcases h with h | h <;> simp [h]
  exact ⟨by simp [get_audio, hb], by simp [delete_audio, hb]⟩

/-- Witness for C9 at the traversal filename `"../secret"`. -/
theorem audio_traversal_rejected_witness :
    (hasSubstr ['.', '.'] "../secret".toList = true
        ∨ hasSubstr ['/'] "../secret".toList = true)
      ∧ (get_audio ["a.wav".toList] "../secret".toList = .error 400
          ∧ delete_audio ["a.wav".toList] "../secret".toList
              = (["a.wav".toList], .error 400)) :=
  ⟨Or.inl (by decide),
    audio_traversal_rejected ["a.wav".toList] "../secret".toList (Or.inl (by decide))⟩

/-! ### Helper lemmas: association-list registry -/

theorem countP_eq_zero_of_lookup_none (l : List (String × Nat)) (k : String)
    (h : l.lookup k = none) : l.countP (fun p => p.1 == k) = 0 := by
  rw [List.countP_eq_zero]
  intro p hp
  have hne := List.lookup_eq_none_iff.mp h p hp
  simp only [bne_iff_ne, ne_eq] at hne
  simp only [beq_iff_eq]
  exact fun hc => hne hc.symm

theorem countP_eq_one_of_lookup_some (l : List (String × Nat)) (k : String) (v : Nat)
    (hn : (l.map Prod.fst).Nodup) (h : l.lookup k = some v) :
    l.countP (fun p => p.1 == k) = 1 := by
  obtain ⟨l₁, l₂, rfl, hl₁⟩ := List.lookup_eq_some_iff.mp h
  rw [List.countP_append, List.countP_cons]
  have h1 : l₁.countP (fun p => p.1 == k) = 0 := by
    rw [List.countP_eq_zero]
    intro p hp
    have hne := hl₁ p hp
    simp only [bne_iff_ne, ne_eq] at hne
    simp only [beq_iff_eq]
    exact fun hc => hne hc.symm
  have h2 : l₂.countP (fun p => p.1 == k) = 0 := by
    rw [List.countP_eq_zero]
    intro p hp
    rw [List.map_append, List.map_cons] at hn
    have hk2 := (List.nodup_cons.mp hn.of_append_right).1
    simp only [beq_iff_eq]
    intro hc
    exact hk2 (List.mem_map.mpr ⟨p, hp, hc⟩)
  simp [h1, h2]

theorem lookup_append_singleton (l : List (String × Nat)) (k : String) (n : Nat)
    (h : l.lookup k = none) : (l ++ [(k, n)]).lookup k = some n := by
  rw [List.lookup_append, h]
  simp

theorem lookup_none_of_reg (st : TTSService) (key : String) (q : String → Bool)
    (hreg : ∀ p ∈ st.models, q p.1 = true) (hq : q key = false) :
    st.models.lookup key = none := by
  cases h : st.models.lookup key with
  | none => rfl
  | some v =>
    exfalso
    have hs : (st.models.lookup key).isSome := by rw [h]; rfl
    obtain ⟨p, hp, hpk⟩ := List.lookup_isSome_iff.mp hs
    have hkey : key = p.1 := by simpa [beq_iff_eq] using hpk
    have := hreg p hp
    rw [← hkey, hq] at this
    exact Bool.noConfusion this

/-! ### Claim theorems: C3, C5, C7, C8, C10 -/

/-- C3. For every valid, downloaded model key, calling
`TTSService.load_model` twice in a row leaves exactly one resident handle for
that key, and the second call returns success without constructing a new
runtime handle: it returns the state of the first call unchanged (same stored
handle, same `nextHandle` counter).  The `Nodup` hypothesis is the
association-list rendering of the Python `dict` invariant. -/
theorem load_model_idempotent (d : String → Bool) (st : TTSService) (key : String)
    (hk : validKey key = true) (hd : d key = true)
    (hn : (st.models.map Prod.fst).Nodup) :
    ∃ st1, load_model d st key = .ok (st1, true)
      ∧ load_model d st1 key = .ok (st1, true)
      ∧ st1.models.countP (fun p => p.1 == key) = 1 := by
  cases h : st.models.lookup key with
  | none =>
    refine ⟨{ models := st.models ++ [(key, st.nextHandle)],
              current_model_key := some key,
              nextHandle := st.nextHandle + 1 }, ?_, ?_, ?_⟩
    · simp [load_model, hk, hd, h]
    · have h2 := lookup_append_singleton st.models key st.nextHandle h
      simp [load_model, hk, hd, h2]
    · simp only [List.countP_append, countP_eq_zero_of_lookup_none st.models key h]
      simp
  | some v =>
    refine ⟨{ st with current_model_key := some key }, ?_, ?_, ?_⟩
    · simp [load_model, hk, hd, h]
    · simp [load_model, hk, hd, h]
    · exact countP_eq_one_of_lookup_some st.models key v hn h

/-- Witness for C3: loading `"en"` twice from the empty registry. -/
theorem load_model_idempotent_witness :
    validKey "en" = true ∧ (fun _ : String => true) "en" = true
      ∧ ((TTSService.mk [] none 0).models.map Prod.fst).Nodup
      ∧ (∃ st1, load_model (fun _ => true) (TTSService.mk [] none 0) "en"
              = .ok (st1, true)
          ∧ load_model (fun _ => true) st1 "en" = .ok (st1, true)
          ∧ st1.models.countP (fun p => p.1 == "en") = 1) :=
  ⟨by decide, rfl, by simp,
    load_model_idempotent (fun _ => true) (TTSService.mk [] none 0) "en"
      (by decide) rfl (by simp)⟩

/-- C5. For a valid model key whose artifacts already exist locally,
`download_model_with_progress` emits exactly one snapshot; it has status
`"completed"` with the degenerate full-progress value
(`total_size = downloaded_size = 1`, hence `progress_percent = 100`); no
emitted event has status `"downloading"`; and no background transfer is
started. -/
theorem download_already_downloaded (env : DlEnv) (key : String)
    (hk : validKey key = true) (hd : env.downloaded key = true) :
    download_model_with_progress env key = ([.snap (completedSnap key)], false)
      ∧ (∀ e ∈ (download_model_with_progress env key).1,
            DlEvent.status e = "completed" ∧ DlEvent.status e ≠ "downloading")
      ∧ progress_percent (completedSnap key) = 100 := by
  have h1 : download_model_with_progress env key
      = ([.snap (completedSnap key)], false) := by
    simp [download_model_with_progress, hk, hd]
  refine ⟨h1, ?_, ?_⟩
  · rw [h1]
    intro e he
    simp only [List.mem_singleton] at he
    subst he
    refine ⟨rfl, ?_⟩
    show ("completed" : String) ≠ "downloading"
    decide
  · unfold progress_percent completedSnap
    norm_num

/-- Witness for C5 with a concrete environment whose filesystem reports the
model as present. -/
theorem download_already_downloaded_witness :
    validKey "en" = true
      ∧ (DlEnv.mk (fun _ => true) (.ok []) [] (.ok ())).downloaded "en" = true
      ∧ (download_model_with_progress
            (DlEnv.mk (fun _ => true) (.ok []) [] (.ok ())) "en"
          = ([.snap (completedSnap "en")], false)
        ∧ (∀ e ∈ (download_model_with_progress
              (DlEnv.mk (fun _ => true) (.ok []) [] (.ok ())) "en").1,
            DlEvent.status e = "completed" ∧ DlEvent.status e ≠ "downloading")
        ∧ progress_percent (completedSnap "en") = 100) :=
  ⟨by decide, rfl,
    download_already_downloaded (DlEnv.mk (fun _ => true) (.ok []) [] (.ok ()))
      "en" (by decide) rfl⟩

/-- C7, counterexample. The claim "for every request whose model key is
valid but whose model is not downloaded, `generate` fails with a
not-downloaded error" is false as stated: a request whose text is blank
(here `" "`, which passes the HTTP layer's `min_length=1`) fails the emptiness
check first and raises the validation error instead of the not-downloaded
error, even though the key is valid and the model is not downloaded. -/
theorem generate_not_downloaded_cex :
    validKey "en" = true
      ∧ (fun _ : String => false) "en" = false
      ∧ generate (fun _ => false) (fun _ _ => []) "f" (TTSService.mk [] none 0)
          [] [' '] "en" none = .error "Text cannot be empty"
      ∧ "Text cannot be empty" ≠ "Model en is not downloaded" :=
  ⟨by decide, rfl, rfl, by decide⟩

/-- C7, amended. For every request whose text is non-blank after
trimming and whose model key is valid but not downloaded, in any service
state whose resident handles all belong to downloaded models (true of every
state the service itself can reach, since loading requires downloadedness),
`generate` fails with the not-downloaded error; the result is an error and
carries no new state, so no output file is written and the registry is
unchanged. -/
theorem generate_not_downloaded_fails (d : String → Bool)
    (synth : List Char → Option String → List Int) (fname : String)
    (st : TTSService) (outputs : List (String × List Int))
    (text : List Char) (key : String) (sp : Option String)
    (hk : validKey key = true) (hd : d key = false)
    (ht : (stripF text).isEmpty = false)
    (hreg : ∀ p ∈ st.models, d p.1 = true) :
    generate d synth fname st outputs text key sp
      = .error ("Model " ++ key ++ " is not downloaded") := by
  have hlk : st.models.lookup key = none := lookup_none_of_reg st key d hreg hd
  unfold generate
  rw [ht]
  simp only [Bool.false_eq_true, if_false]
  rw [hlk]
  simp [load_model, hk, hd]

/-- Witness for the amended C7 at text `"hi"`, key `"en"`, empty registry. -/
theorem generate_not_downloaded_fails_witness :
    validKey "en" = true
      ∧ (fun _ : String => false) "en" = false
      ∧ (stripF "hi".toList).isEmpty = false
      ∧ (∀ p ∈ (TTSService.mk [] none 0).models, (fun _ : String => false) p.1 = true)
      ∧ generate (fun _ => false) (fun _ _ => []) "f" (TTSService.mk [] none 0)
          [] "hi".toList "en" none = .error "Model en is not downloaded" :=
  ⟨by decide, rfl, by decide, by simp,
    generate_not_downloaded_fails (fun _ => false) (fun _ _ => []) "f"
      (TTSService.mk [] none 0) [] "hi".toList "en" none
      (by decide) rfl (by decide) (by simp)⟩

/-- C8, counterexample. The claim "every operation fails fast with an
error rather than succeeding or silently returning" is false for
`unload_model`: on the unknown key `"zz"` it silently returns `false` with
the state unchanged, raising no error (it never consults the descriptor
table). -/
theorem unload_unknown_silent_cex :
    validKey "zz" = false
      ∧ unload_model (TTSService.mk [] none 0) "zz"
          = (TTSService.mk [] none 0, false) :=
  ⟨by decide, rfl⟩

/-- C8, amended. For every model key not in the descriptor table:
`load_model` fails with the unknown-model error; `generate` fails with an
error; `download_model_with_progress` emits a single error event and
terminates without starting a transfer; but `unload_model` is a silent no-op
returning `false` with the state unchanged, not an error.  The registry
hypothesis (all resident keys are valid) holds in every reachable state since
`load_model` rejects invalid keys. -/
theorem unknown_key_all_ops (d : String → Bool)
    (synth : List Char → Option String → List Int) (fname : String)
    (st : TTSService) (outputs : List (String × List Int))
    (text : List Char) (sp : Option String) (env : DlEnv) (key : String)
    (hk : validKey key = false)
    (hreg : ∀ p ∈ st.models, validKey p.1 = true) :
    load_model d st key = .error ("Unknown model: " ++ key)
      ∧ unload_model st key = (st, false)
      ∧ (∃ e, generate d synth fname st outputs text key sp = .error e)
      ∧ download_model_with_progress env key
          = ([.raw "error" "Unknown model"], false) := by
  have hlk : st.models.lookup key = none :=
    lookup_none_of_reg st key validKey hreg hk
  refine ⟨by simp [load_model, hk], by simp [unload_model, hlk], ?_,
    by simp [download_model_with_progress, hk]⟩
  by_cases ht : (stripF text).isEmpty = true
  · exact ⟨"Text cannot be empty", by simp [generate, ht]⟩
  · refine ⟨"Unknown model: " ++ key, ?_⟩
    unfold generate
    rw [Bool.not_eq_true] at ht
    rw [ht]
    simp only [Bool.false_eq_true, if_false]
    rw [hlk]
    simp [load_model, hk]

/-- Witness for the amended C8 at the unknown key `"zz"`. -/
theorem unknown_key_all_ops_witness :
    validKey "zz" = false
      ∧ (∀ p ∈ (TTSService.mk [] none 0).models, validKey p.1 = true)
      ∧ (load_model (fun _ => true) (TTSService.mk [] none 0) "zz"
            = .error "Unknown model: zz"
        ∧ unload_model (TTSService.mk [] none 0) "zz"
            = (TTSService.mk [] none 0, false)
        ∧ (∃ e, generate (fun _ => true) (fun _ _ => []) "f"
              (TTSService.mk [] none 0) [] "hi".toList "zz" none = .error e)
        ∧ download_model_with_progress (DlEnv.mk (fun _ => false) (.ok []) [] (.ok ()))
              "zz" = ([.raw "error" "Unknown model"], false)) :=
  ⟨by decide, by simp,
    unknown_key_all_ops (fun _ => true) (fun _ _ => []) "f"
      (TTSService.mk [] none 0) [] "hi".toList none
      (DlEnv.mk (fun _ => false) (.ok []) [] (.ok ())) "zz" (by decide) (by simp)⟩

/-! ### Whitespace-only input (C10) -/

theorem pySplitAux_all_ws (s : List Char) (h : ∀ c ∈ s, isWs c = true) :
    pySplitAux s [] = [] := by
  induction s with
  | nil => rfl
  | cons c rest ih =>
    have hc := h c (List.mem_cons_self c rest)
    simp only [pySplitAux, hc, if_true, List.isEmpty_nil]
    exact ih fun x hx => h x (List.mem_cons_of_mem c hx)

/-- C10.** For every input consisting only of whitespace (including the
empty string), `split_into_sentences` returns the single-element list whose
sole element is the empty string: the promised non-empty sequence, but with
an empty chunk that a caller would pass to the model capability. -/
theorem split_whitespace_only (text : List Char)
    (h : ∀ c ∈ text, isWs c = true) :
    split_into_sentences text = [[]] := by
  have hn : normWs text = [] := by
    unfold normWs pySplit
    rw [pySplitAux_all_ws text h]
    rfl
  unfold split_into_sentences
  rw [hn]
  rfl

/-- Witness for C10 at the one-space input `" "`. -/
theorem split_whitespace_only_witness :
    (∀ c ∈ [' '], isWs c = true) ∧ split_into_sentences [' '] = [[]] :=
  ⟨by decide, split_whitespace_only [' '] (by decide)⟩

/-! ### Whitespace normal forms

`normWs` output consists of whitespace-free words joined by single spaces.
The predicates below capture the character-level consequences used to reason
about the regex splits and the packing loop: every whitespace character is a
single `' '` flanked by non-whitespace (`MidOk`, plus a non-whitespace head
for `GoodWs`), and `NoSep p` states that no character satisfying `p` is
immediately followed by whitespace (i.e. the piece contains no split point of
the regex with lookbehind class `p`). -/

def wsFree (s : List Char) : Prop := ∀ c ∈ s, isWs c = false

def OnlySp (s : List Char) : Prop := ∀ c ∈ s, isWs c = true → c = ' '

def NoRun (s : List Char) : Prop :=
  List.Chain' (fun a b => (isWs a && isWs b) = false) s

def MidOk (s : List Char) : Prop :=
  OnlySp s ∧ NoRun s ∧ ∀ c ∈ s.getLast?, isWs c = false

def GoodWs (s : List Char) : Prop := MidOk s ∧ ∀ c ∈ s.head?, isWs c = false

def NoSep (p : Char → Bool) (s : List Char) : Prop :=
  List.Chain' (fun a b => (p a && isWs b) = false) s

theorem midOk_nil : MidOk ([] : List Char) :=
  ⟨fun c hc => absurd hc (List.not_mem_nil c), List.chain'_nil,
    fun c hc => by simp at hc⟩

theorem goodWs_nil : GoodWs ([] : List Char) :=
  ⟨midOk_nil, fun c hc => by simp at hc⟩

theorem noSep_nil (p : Char → Bool) : NoSep p ([] : List Char) := List.chain'_nil

theorem midOk_tail (c : Char) (rest : List Char) (h : MidOk (c :: rest)) :
    MidOk rest := by
  obtain ⟨hsp, hrun, hlast⟩ := h
  refine ⟨fun x hx => hsp x (List.mem_cons_of_mem c hx), hrun.tail, ?_⟩
  cases rest with
  | nil => intro x hx; simp at hx
  | cons d t =>
    intro x hx
    exact hlast x (by rw [List.getLast?_cons_cons]; exact hx)

theorem chain'_of_all {R : Char → Char → Prop} (P : Char → Prop)
    (h : ∀ a b, P a → R a b) :
    ∀ l : List Char, (∀ a ∈ l, P a) → List.Chain' R l := by
  intro l
  induction l with
  | nil => intro _; exact List.chain'_nil
  | cons a t ih =>
    intro hl
    rw [List.chain'_cons']
    exact ⟨fun y _ => h a y (hl a (List.mem_cons_self a t)),
      ih fun x hx => hl x (List.mem_cons_of_mem a hx)⟩

theorem goodWs_of_wsFree (s : List Char) (h : wsFree s) : GoodWs s := by
  refine ⟨⟨fun c hc hw => absurd hw (by simp [h c hc]), ?_, ?_⟩, ?_⟩
  · exact chain'_of_all (fun a => isWs a = false) (fun a b ha => by simp [ha]) s h
  · exact fun c hc => h c (List.mem_of_mem_getLast? hc)
  · exact fun c hc => h c (List.mem_of_mem_head? hc)

/-! ### `joinSp` algebra -/

theorem joinSp_cons_ne (w : List Char) (ws : List (List Char)) (h : ws ≠ []) :
    joinSp (w :: ws) = w ++ ' ' :: joinSp ws := by
  cases ws with
  | nil => exact absurd rfl h
  | cons x xs => rfl

theorem joinSp_ne_nil (ws : List (List Char)) (h : ws ≠ [])
    (hw : ∀ w ∈ ws, w ≠ []) : joinSp ws ≠ [] := by
  cases ws with
  | nil => exact absurd rfl h
  | cons w ws =>
    cases ws with
    | nil => exact hw w (List.mem_cons_self w [])
    | cons x xs => simp [joinSp_cons_ne]

theorem joinSp_cons₂ (w x : List Char) (xs : List (List Char)) :
    joinSp (w :: x :: xs) = w ++ ' ' :: joinSp (x :: xs) := rfl

theorem joinSp_glue (a b : List Char) (ps : List (List Char)) :
    joinSp ((a ++ ' ' :: b) :: ps) = joinSp (a :: b :: ps) := by
  cases ps with
  | nil => rfl
  | cons x xs => simp [joinSp_cons₂, List.append_assoc]

theorem joinSp_append (A B : List (List Char)) (hA : A ≠ []) (hB : B ≠ []) :
    joinSp (A ++ B) = joinSp A ++ ' ' :: joinSp B := by
  induction A with
  | nil => exact absurd rfl hA
  | cons a A ih =>
    cases A with
    | nil => simpa using joinSp_cons_ne a B hB
    | cons x xs =>
      have h1 : (a :: x :: xs) ++ B = a :: ((x :: xs) ++ B) := by simp
      rw [h1, joinSp_cons_ne a ((x :: xs) ++ B) (by simp), ih (by simp),
        joinSp_cons₂ a x xs]
      simp [List.append_assoc]

/-! ### `stripF` on normalised strings -/

theorem stripF_eq_self (s : List Char) (h : GoodWs s) : stripF s = s := by
  obtain ⟨⟨_, _, hlast⟩, hhead⟩ := h
  cases s with
  | nil => rfl
  | cons c t =>
    have hc : isWs c = false := hhead c rfl
    unfold stripF
    rw [List.dropWhile_cons]
    simp only [hc, Bool.false_eq_true, if_false]
    cases hrev : (c :: t).reverse with
    | nil => simp at hrev
    | cons e r =>
      have he : isWs e = false := by
        apply hlast
        rw [← List.head?_reverse, hrev]
        rfl
      rw [List.dropWhile_cons]
      simp only [he, Bool.false_eq_true, if_false]
      rw [← hrev, List.reverse_reverse]

theorem stripF_length_le (s : List Char) : (stripF s).length ≤ s.length := by
  unfold stripF
  rw [List.length_reverse]
  have h1 := (List.dropWhile_sublist (l := (s.dropWhile isWs).reverse) isWs).length_le
  have h2 := (List.dropWhile_sublist (l := s) isWs).length_le
  rw [List.length_reverse] at h1
  omega

theorem goodWs_append_space (a b : List Char) (ha : GoodWs a) (hane : a ≠ [])
    (hb : GoodWs b) (hbne : b ≠ []) : GoodWs (a ++ ' ' :: b) := by
  obtain ⟨⟨hsp, hrun, hlast⟩, hhead⟩ := ha
  obtain ⟨⟨hsp', hrun', hlast'⟩, hhead'⟩ := hb
  refine ⟨⟨?_, ?_, ?_⟩, ?_⟩
  · intro c hc hw
    rcases List.mem_append.mp hc with h | h
    · exact hsp c h hw
    · rcases List.mem_cons.mp h with rfl | h
      · rfl
      · exact hsp' c h hw
  · unfold NoRun
    rw [List.chain'_append]
    refine ⟨hrun, ?_, ?_⟩
    · rw [List.chain'_cons']
      exact ⟨fun y hy => by simp [hhead' y hy], hrun'⟩
    · intro x hx y hy
      simp only [List.head?_cons, Option.mem_def, Option.some.injEq] at hy
      subst hy
      simp [hlast x hx]
  · intro c hc
    rw [List.getLast?_append] at hc
    cases b with
    | nil => exact absurd rfl hbne
    | cons e t =>
      rw [List.getLast?_cons_cons] at hc
      obtain ⟨v, hv⟩ := Option.isSome_iff_exists.mp
        (List.getLast?_isSome.mpr (by simp : (e :: t : List Char) ≠ []))
      rw [hv] at hc
      simp only [Option.or_some, Option.mem_def, Option.some.injEq] at hc
      exact hc ▸ hlast' v (by rw [hv]; rfl)
  · intro c hc
    cases a with
    | nil => exact absurd rfl hane
    | cons x xs =>
      rw [List.cons_append, List.head?_cons] at hc
      simp only [Option.mem_def, Option.some.injEq] at hc
      exact hc ▸ hhead x rfl

/-! ### The regex splitter on normalised input -/

theorem joinSp_cons_head (c : Char) (f : List Char) (rs : List (List Char)) :
    joinSp ((c :: f) :: rs) = c :: joinSp (f :: rs) := by
  cases rs <;> rfl

theorem reSplGo_skip_eq (p : Char → Bool) (d : Char) (r : List Char)
    (hd : isWs d = false) :
    reSplGo p true none (d :: r) = reSplGo p false none (d :: r) := by
  simp [reSplGo, hd, prevP]

/-- Behaviour of one `re.split(r'(?<=[X])\s+', ·)` pass on a string in
whitespace normal form: the pieces rebuild the input when re-joined with
single spaces; every piece after the first is non-empty and fully normalised;
no piece contains an internal split point; and the first piece is empty
exactly when the scan starts at a split point. -/
theorem reSplGo_spec (p : Char → Bool) (s : List Char) :
    ∀ prev : Option Char, MidOk s →
    ∃ f rs, reSplGo p false prev s = f :: rs
      ∧ joinSp (f :: rs) = s
      ∧ MidOk f ∧ NoSep p f
      ∧ (∀ piece ∈ rs, piece ≠ [] ∧ GoodWs piece ∧ NoSep p piece)
      ∧ (match s with
         | [] => f = []
         | d :: _ =>
           if (isWs d && prevP p prev) = true then f = []
           else ∃ t, f = d :: t) := by
  induction s with
  | nil =>
    intro prev _
    refine ⟨[], [], rfl, rfl, midOk_nil, noSep_nil p, ?_, rfl⟩
    intro piece hp
    simp at hp
  | cons c rest ih =>
    intro prev hmid
    have hrest : MidOk rest := midOk_tail c rest hmid
    obtain ⟨hsp, hrun, hlast⟩ := hmid
    by_cases hw : isWs c = true
    · have hcsp : c = ' ' := hsp c (List.mem_cons_self c rest) hw
      cases rest with
      | nil =>
        exfalso
        have h := hlast c (by simp)
        rw [hw] at h
        exact Bool.noConfusion h
      | cons d rest' =>
        have hd : isWs d = false := by
          have hpair := (List.chain'_cons.mp hrun).1
          rw [hw] at hpair
          simpa using hpair
        by_cases hpp : prevP p prev = true
        · obtain ⟨f1, rs1, heq1, hjoin1, hmid1, hns1, hrs1, hhead1⟩ :=
            ih none hrest
          have hstep : reSplGo p false prev (c :: d :: rest')
              = [] :: reSplGo p true none (d :: rest') := by
            simp [reSplGo, hw, hpp]
          rw [reSplGo_skip_eq p d rest' hd, heq1] at hstep
          have hf1 : ∃ t, f1 = d :: t := by
            have h : (if (isWs d && prevP p none) = true then f1 = []
                else ∃ t, f1 = d :: t) := hhead1
            rw [if_neg (by simp [hd, prevP])] at h
            exact h
          obtain ⟨t1, ht1⟩ := hf1
          refine ⟨[], f1 :: rs1, hstep, ?_, midOk_nil, noSep_nil p, ?_, ?_⟩
          · rw [joinSp_cons₂, hjoin1, hcsp]
            rfl
          · intro piece hpiece
            rcases List.mem_cons.mp hpiece with rfl | hpm
            · refine ⟨by simp [ht1], ⟨hmid1, ?_⟩, hns1⟩
              intro x hx
              rw [ht1, List.head?_cons] at hx
              simp only [Option.mem_def, Option.some.injEq] at hx
              exact hx ▸ hd
            · exact hrs1 piece hpm
          · simp [hw, hpp]
        · rw [Bool.not_eq_true] at hpp
          obtain ⟨f1, rs1, heq1, hjoin1, hmid1, hns1, hrs1, hhead1⟩ :=
            ih (some c) hrest
          have hstep : reSplGo p false prev (c :: d :: rest')
              = consHead c (reSplGo p false (some c) (d :: rest')) := by
            simp [reSplGo, hw, hpp]
          rw [heq1] at hstep
          have hf1 : ∃ t, f1 = d :: t := by
            have h : (if (isWs d && prevP p (some c)) = true then f1 = []
                else ∃ t, f1 = d :: t) := hhead1
            rw [if_neg (by simp [hd])] at h
            exact h
          obtain ⟨t1, ht1⟩ := hf1
          refine ⟨c :: f1, rs1, hstep, ?_, ⟨?_, ?_, ?_⟩, ?_, hrs1, ?_⟩
          · rw [joinSp_cons_head, hjoin1]
          · intro x hx hxw
            rcases List.mem_cons.mp hx with rfl | hxm
            · exact hcsp
            · exact hmid1.1 x hxm hxw
          · rw [ht1]
            unfold NoRun
            rw [List.chain'_cons]
            refine ⟨by simp [hd], ?_⟩
            have h := hmid1.2.1
            unfold NoRun at h
            rw [ht1] at h
            exact h
          · intro x hx
            rw [ht1, List.getLast?_cons_cons] at hx
            exact hmid1.2.2 x (ht1 ▸ hx)
          · unfold NoSep
            rw [List.chain'_cons']
            refine ⟨?_, hns1⟩
            intro y hy
            rw [ht1, List.head?_cons] at hy
            simp only [Option.mem_def, Option.some.injEq] at hy
            simp [hy ▸ hd]
          · simp [hw, hpp]
    · rw [Bool.not_eq_true] at hw
      obtain ⟨f1, rs1, heq1, hjoin1, hmid1, hns1, hrs1, hhead1⟩ :=
        ih (some c) hrest
      have hstep : reSplGo p false prev (c :: rest)
          = consHead c (reSplGo p false (some c) rest) := by
        simp [reSplGo, hw]
      rw [heq1] at hstep
      refine ⟨c :: f1, rs1, hstep, ?_, ⟨?_, ?_, ?_⟩, ?_, hrs1, ?_⟩
      · rw [joinSp_cons_head, hjoin1]
      · intro x hx hxw
        rcases List.mem_cons.mp hx with rfl | hxm
        · rw [hw] at hxw
          exact Bool.noConfusion hxw
        · exact hmid1.1 x hxm hxw
      · unfold NoRun
        rw [List.chain'_cons']
        refine ⟨fun y _ => by simp [hw], ?_⟩
        exact hmid1.2.1
      · intro x hx
        cases hf1 : f1 with
        | nil =>
          rw [hf1] at hx
          simp only [List.getLast?_singleton, Option.mem_def,
            Option.some.injEq] at hx
          rw [← hx]
          exact hw
        | cons e t =>
          rw [hf1, List.getLast?_cons_cons] at hx
          exact hmid1.2.2 x (hf1 ▸ hx)
      · unfold NoSep
        rw [List.chain'_cons']
        refine ⟨?_, hns1⟩
        intro y hy
        by_cases hpc : p c = true
        · cases hr : rest with
          | nil =>
            have h1 : f1 = [] := by
              have h : f1 = [] := by
                have h0 := hhead1
                rw [hr] at h0
                exact h0
              exact h
            rw [h1] at hy
            simp at hy
          | cons d rest' =>
            have h0 : (if (isWs d && prevP p (some c)) = true then f1 = []
                else ∃ t, f1 = d :: t) := by
              have h := hhead1
              rw [hr] at h
              exact h
            by_cases hdws : isWs d = true
            · rw [if_pos (by simp [hdws, prevP, hpc])] at h0
              rw [h0] at hy
              simp at hy
            · rw [Bool.not_eq_true] at hdws
              rw [if_neg (by simp [hdws])] at h0
              obtain ⟨t, ht⟩ := h0
              rw [ht, List.head?_cons] at hy
              simp only [Option.mem_def, Option.some.injEq] at hy
              simp [hy ▸ hdws]
        · rw [Bool.not_eq_true] at hpc
          simp [hpc]
      · simp [hw]

/-! ### `normWs` produces whitespace normal form -/

theorem pySplitAux_words (s : List Char) :
    ∀ cur, wsFree cur → ∀ w ∈ pySplitAux s cur, w ≠ [] ∧ wsFree w := by
  induction s with
  | nil =>
    intro cur hcur w hw
    rw [pySplitAux] at hw
    by_cases hce : cur.isEmpty = true
    · simp [hce] at hw
    · rw [if_neg hce, List.mem_singleton] at hw
      subst hw
      refine ⟨?_, fun c hc => hcur c (List.mem_reverse.mp hc)⟩
      intro hnil
      rw [List.reverse_eq_nil_iff] at hnil
      rw [hnil] at hce
      exact hce rfl
  | cons c rest ih =>
    intro cur hcur w hw
    rw [pySplitAux] at hw
    by_cases hws : isWs c = true
    · rw [if_pos hws] at hw
      by_cases hce : cur.isEmpty = true
      · rw [if_pos hce] at hw
        exact ih [] (fun x hx => absurd hx (List.not_mem_nil x)) w hw
      · rw [if_neg hce] at hw
        rcases List.mem_cons.mp hw with rfl | hwm
        · refine ⟨?_, fun x hx => hcur x (List.mem_reverse.mp hx)⟩
          intro hnil
          rw [List.reverse_eq_nil_iff] at hnil
          rw [hnil] at hce
          exact hce rfl
        · exact ih [] (fun x hx => absurd hx (List.not_mem_nil x)) w hwm
    · rw [if_neg hws] at hw
      rw [Bool.not_eq_true] at hws
      refine ih (c :: cur) ?_ w hw
      intro x hx
      rcases List.mem_cons.mp hx with rfl | hxm
      · exact hws
      · exact hcur x hxm

theorem goodWs_joinSp (ws : List (List Char))
    (h : ∀ w ∈ ws, w ≠ [] ∧ wsFree w) : GoodWs (joinSp ws) := by
  induction ws with
  | nil => exact goodWs_nil
  | cons w ws ih =>
    cases ws with
    | nil => exact goodWs_of_wsFree w (h w (List.mem_cons_self w [])).2
    | cons x xs =>
      rw [joinSp_cons₂]
      refine goodWs_append_space w (joinSp (x :: xs))
        (goodWs_of_wsFree w (h w (List.mem_cons_self _ _)).2)
        (h w (List.mem_cons_self _ _)).1
        (ih fun v hv => h v (List.mem_cons_of_mem _ hv)) ?_
      exact joinSp_ne_nil (x :: xs) (by simp)
        fun v hv => (h v (List.mem_cons_of_mem _ hv)).1

theorem goodWs_normWs (s : List Char) : GoodWs (normWs s) :=
  goodWs_joinSp (pySplit s)
    (pySplitAux_words s [] fun x hx => absurd hx (List.not_mem_nil x))

/-! ### The greedy packing loop -/

theorem isEmpty_false_of_ne (l : List Char) (h : l ≠ []) : l.isEmpty = false := by
  cases l with
  | nil => exact absurd rfl h
  | cons a b => rfl

theorem packLoop_acc (ps : List (List Char)) :
    ∀ cur acc, packLoop ps cur acc = acc ++ packLoop ps cur [] := by
  induction ps with
  | nil =>
    intro cur acc
    simp only [packLoop]
    by_cases hce : cur.isEmpty = true
    · simp [hce]
    · simp [hce]
  | cons part ps ih =>
    intro cur acc
    simp only [packLoop]
    by_cases hlen : cur.length + part.length + 1 ≤ MAX_CHUNK_CHARS
    · rw [if_pos hlen, if_pos hlen]
      exact ih _ acc
    · rw [if_neg hlen, if_neg hlen]
      by_cases hce : cur.isEmpty = true
      · rw [if_pos hce, if_pos hce]
        exact ih part acc
      · rw [if_neg hce, if_neg hce]
        rw [ih part (acc ++ [cur]), ih part ([] ++ [cur])]
        simp

theorem packLoop_join (ps : List (List Char)) :
    ∀ cur, (∀ part ∈ ps, part ≠ [] ∧ GoodWs part) →
      (cur = [] ∨ (cur ≠ [] ∧ GoodWs cur)) →
      joinSp (packLoop ps cur [])
          = joinSp (if cur.isEmpty then ps else cur :: ps)
        ∧ ((cur ≠ [] ∨ ps ≠ []) → packLoop ps cur [] ≠ []) := by
  induction ps with
  | nil =>
    intro cur hps hcur
    simp only [packLoop]
    rcases hcur with rfl | ⟨hne, hgood⟩
    · simp
    · rw [isEmpty_false_of_ne cur hne]
      simp
  | cons part ps ih =>
    intro cur hps hcur
    have hpart := hps part (List.mem_cons_self _ _)
    have hps' : ∀ q ∈ ps, q ≠ [] ∧ GoodWs q :=
      fun q hq => hps q (List.mem_cons_of_mem _ hq)
    have hpe : part.isEmpty = false := isEmpty_false_of_ne part hpart.1
    simp only [packLoop]
    by_cases hlen : cur.length + part.length + 1 ≤ MAX_CHUNK_CHARS
    · rw [if_pos hlen]
      rcases hcur with rfl | ⟨hne, hgood⟩
      · simp only [List.isEmpty_nil, if_true]
        obtain ⟨hj, hne'⟩ := ih part hps' (Or.inr ⟨hpart.1, hpart.2⟩)
        rw [hj, hpe]
        simp only [Bool.false_eq_true, if_false]
        exact ⟨by simp, fun _ => hne' (Or.inl hpart.1)⟩
      · have hce : cur.isEmpty = false := isEmpty_false_of_ne cur hne
        rw [hce]
        simp only [Bool.false_eq_true, if_false]
        have hgApp : GoodWs (cur ++ ' ' :: part) :=
          goodWs_append_space cur part hgood hne hpart.2 hpart.1
        have hstrip : stripF (cur ++ ' ' :: part) = cur ++ ' ' :: part :=
          stripF_eq_self _ hgApp
        rw [hstrip]
        obtain ⟨hj, hne'⟩ := ih (cur ++ ' ' :: part) hps' (Or.inr ⟨by simp, hgApp⟩)
        rw [hj, isEmpty_false_of_ne (cur ++ ' ' :: part) (by simp)]
        simp only [Bool.false_eq_true, if_false]
        exact ⟨joinSp_glue cur part ps, fun _ => hne' (Or.inl (by simp))⟩
    · rw [if_neg hlen]
      obtain ⟨hj, hne'⟩ := ih part hps' (Or.inr ⟨hpart.1, hpart.2⟩)
      have hM : packLoop ps part [] ≠ [] := hne' (Or.inl hpart.1)
      rcases hcur with rfl | ⟨hne, hgood⟩
      · simp only [List.isEmpty_nil, if_true]
        rw [hj, hpe]
        simp only [Bool.false_eq_true, if_false]
        exact ⟨by simp, fun _ => hM⟩
      · have hce : cur.isEmpty = false := isEmpty_false_of_ne cur hne
        rw [hce]
        simp only [Bool.false_eq_true, if_false]
        rw [List.nil_append, packLoop_acc ps part [cur]]
        constructor
        · rw [joinSp_append [cur] _ (by simp) hM, hj, hpe]
          simp only [Bool.false_eq_true, if_false]
          rw [joinSp_cons₂]
          rfl
        · intro _
          simp [hM]

theorem packLoop_chunks (p : Char → Bool) (ps : List (List Char)) :
    ∀ cur acc, (∀ part ∈ ps, NoSep p part) →
      (cur.length ≤ MAX_CHUNK_CHARS ∨ NoSep p cur) →
      (∀ ch ∈ acc, ch.length ≤ MAX_CHUNK_CHARS ∨ NoSep p ch) →
      ∀ ch ∈ packLoop ps cur acc,
        ch.length ≤ MAX_CHUNK_CHARS ∨ NoSep p ch := by
  induction ps with
  | nil =>
    intro cur acc hps hcur hacc ch hch
    simp only [packLoop] at hch
    by_cases hce : cur.isEmpty = true
    · rw [if_pos hce] at hch
      exact hacc ch hch
    · rw [if_neg hce] at hch
      rcases List.mem_append.mp hch with h | h
      · exact hacc ch h
      · rw [List.mem_singleton] at h
        exact h ▸ hcur
  | cons part ps ih =>
    intro cur acc hps hcur hacc ch hch
    have hpart := hps part (List.mem_cons_self _ _)
    have hps' : ∀ q ∈ ps, NoSep p q :=
      fun q hq => hps q (List.mem_cons_of_mem _ hq)
    simp only [packLoop] at hch
    by_cases hlen : cur.length + part.length + 1 ≤ MAX_CHUNK_CHARS
    · rw [if_pos hlen] at hch
      refine ih _ acc hps' ?_ hacc ch hch
      by_cases hce : cur.isEmpty = true
      · rw [if_pos hce]
        exact Or.inr hpart
      · rw [if_neg hce]
        left
        have h1 := stripF_length_le (cur ++ ' ' :: part)
        simp only [List.length_append, List.length_cons] at h1
        omega
    · rw [if_neg hlen] at hch
      refine ih part _ hps' (Or.inr hpart) ?_ ch hch
      intro x hx
      by_cases hce : cur.isEmpty = true
      · rw [if_pos hce] at hx
        exact hacc x hx
      · rw [if_neg hce] at hx
        rcases List.mem_append.mp hx with h | h
        · exact hacc x h
        · rw [List.mem_singleton] at h
          exact h ▸ hcur

/-! ### Per-sentence chunking and the chunk fold -/

theorem map_self_of_mem {l : List (List Char)} {g : List Char → List Char}
    (h : ∀ x ∈ l, g x = x) : l.map g = l := by
  induction l with
  | nil => rfl
  | cons a t ih =>
    rw [List.map_cons, h a (List.mem_cons_self _ _),
      ih fun x hx => h x (List.mem_cons_of_mem _ hx)]

theorem sentChunks_spec (s : List Char) (hne : s ≠ []) (hgood : GoodWs s) :
    joinSp (sentChunks s) = s ∧ sentChunks s ≠ []
      ∧ ∀ ch ∈ sentChunks s,
          ch.length ≤ MAX_CHUNK_CHARS ∨ NoSep clauseSep ch := by
  unfold sentChunks
  by_cases hlen : s.length ≤ MAX_CHUNK_CHARS
  · rw [if_pos hlen]
    refine ⟨rfl, by simp, ?_⟩
    intro ch hch
    rw [List.mem_singleton] at hch
    exact Or.inl (hch ▸ hlen)
  · rw [if_neg hlen]
    obtain ⟨f, rs, heq, hjoin, hmidf, hnsf, hrs, hheadm⟩ :=
      reSplGo_spec clauseSep s none hgood.1
    cases s with
    | nil => exact absurd rfl hne
    | cons d s' =>
      have hdws : isWs d = false := hgood.2 d rfl
      have hf : ∃ t, f = d :: t := by
        have h : (if (isWs d && prevP clauseSep none) = true then f = []
            else ∃ t, f = d :: t) := hheadm
        rw [if_neg (by simp [prevP])] at h
        exact h
      obtain ⟨tf, htf⟩ := hf
      have heq' : reSplit clauseSep (d :: s') = f :: rs := heq
      have hparts : ∀ part ∈ f :: rs, part ≠ [] ∧ GoodWs part := by
        intro part hp
        rcases List.mem_cons.mp hp with rfl | hpm
        · refine ⟨by simp [htf], hmidf, ?_⟩
          intro x hx
          rw [htf, List.head?_cons] at hx
          simp only [Option.mem_def, Option.some.injEq] at hx
          exact hx ▸ hdws
        · exact ⟨(hrs part hpm).1, (hrs part hpm).2.1⟩
      have hnosep : ∀ part ∈ f :: rs, NoSep clauseSep part := by
        intro part hp
        rcases List.mem_cons.mp hp with rfl | hpm
        · exact hnsf
        · exact (hrs part hpm).2.2
      rw [heq']
      obtain ⟨hj, hne'⟩ := packLoop_join (f :: rs) [] hparts (Or.inl rfl)
      refine ⟨?_, hne' (Or.inr (by simp)), ?_⟩
      · rw [hj]
        simp only [List.isEmpty_nil, if_true]
        exact hjoin
      · exact packLoop_chunks clauseSep (f :: rs) [] [] hnosep
          (Or.inl (Nat.zero_le _))
          (fun x hx => absurd hx (List.not_mem_nil x))

theorem foldl_chunks_acc (sentences : List (List Char)) :
    ∀ acc, sentences.foldl (fun acc s => acc ++ sentChunks s) acc
      = acc ++ sentences.foldl (fun acc s => acc ++ sentChunks s) [] := by
  induction sentences with
  | nil => intro acc; simp
  | cons s ss ih =>
    intro acc
    rw [List.foldl_cons, List.foldl_cons, ih (acc ++ sentChunks s),
      ih ([] ++ sentChunks s)]
    simp

theorem fold_sentences_spec (sentences : List (List Char))
    (h : ∀ s ∈ sentences, s ≠ [] ∧ GoodWs s) :
    joinSp (sentences.foldl (fun acc s => acc ++ sentChunks s) [])
        = joinSp sentences
      ∧ (sentences ≠ []
          → sentences.foldl (fun acc s => acc ++ sentChunks s) [] ≠ [])
      ∧ ∀ ch ∈ sentences.foldl (fun acc s => acc ++ sentChunks s) [],
          ch.length ≤ MAX_CHUNK_CHARS ∨ NoSep clauseSep ch := by
  induction sentences with
  | nil =>
    exact ⟨rfl, fun hc => absurd rfl hc, fun ch hch => by simp at hch⟩
  | cons s ss ih =>
    have hs := h s (List.mem_cons_self _ _)
    have hss : ∀ q ∈ ss, q ≠ [] ∧ GoodWs q :=
      fun q hq => h q (List.mem_cons_of_mem _ hq)
    obtain ⟨hjs, hnes, hoks⟩ := sentChunks_spec s hs.1 hs.2
    obtain ⟨hj, hne, hok⟩ := ih hss
    rw [List.foldl_cons, List.nil_append, foldl_chunks_acc ss (sentChunks s)]
    cases ss with
    | nil =>
      refine ⟨?_, fun _ => ?_, ?_⟩
      · rw [List.foldl_nil, List.append_nil]
        exact hjs.trans rfl
      · rw [List.foldl_nil, List.append_nil]
        exact hnes
      · intro ch hch
        rw [List.foldl_nil, List.append_nil] at hch
        exact hoks ch hch
    | cons x xs =>
      have hM : (x :: xs).foldl (fun acc s => acc ++ sentChunks s) [] ≠ [] :=
        hne (by simp)
      refine ⟨?_, fun _ => ?_, ?_⟩
      · rw [joinSp_append _ _ hnes hM, hjs, hj,
          joinSp_cons_ne s (x :: xs) (by simp)]
      · intro hcon
        rcases List.append_eq_nil.mp hcon with ⟨h1, _⟩
        exact hnes h1
      · intro ch hch
        rcases List.mem_append.mp hch with h1 | h1
        · exact hoks ch h1
        · exact hok ch h1

/-! ### The master theorem for `split_into_sentences` -/

/-- Master property of `split_into_sentences`: the chunk list is non-empty,
re-joins (with single spaces) to the whitespace-normalised input, and every
chunk is within the budget unless it contains no internal clause separator. -/
theorem split_into_sentences_master (text : List Char) :
    split_into_sentences text ≠ []
      ∧ joinSp (split_into_sentences text) = normWs text
      ∧ ∀ ch ∈ split_into_sentences text,
          ch.length ≤ MAX_CHUNK_CHARS ∨ NoSep clauseSep ch := by
  cases ht : normWs text with
  | nil =>
    have heq : split_into_sentences text = [[]] := by
      unfold split_into_sentences
      rw [ht]
      rfl
    rw [heq]
    refine ⟨by simp, rfl, ?_⟩
    intro ch hch
    rw [List.mem_singleton] at hch
    exact Or.inl (by simp [hch])
  | cons d t' =>
    have hgood : GoodWs (d :: t') := ht ▸ goodWs_normWs text
    obtain ⟨f, rs, heq, hjoin, hmidf, hnsf, hrs, hheadm⟩ :=
      reSplGo_spec sentEnd (d :: t') none hgood.1
    have hdws : isWs d = false := hgood.2 d rfl
    have hf : ∃ t, f = d :: t := by
      have h : (if (isWs d && prevP sentEnd none) = true then f = []
          else ∃ t, f = d :: t) := hheadm
      rw [if_neg (by simp [prevP])] at h
      exact h
    obtain ⟨tf, htf⟩ := hf
    have heq' : reSplit sentEnd (d :: t') = f :: rs := heq
    have hpieces : ∀ piece ∈ f :: rs, piece ≠ [] ∧ GoodWs piece := by
      intro piece hp
      rcases List.mem_cons.mp hp with rfl | hpm
      · refine ⟨by simp [htf], hmidf, ?_⟩
        intro x hx
        rw [htf, List.head?_cons] at hx
        simp only [Option.mem_def, Option.some.injEq] at hx
        exact hx ▸ hdws
      · exact ⟨(hrs piece hpm).1, (hrs piece hpm).2.1⟩
    have hmap : (f :: rs).map stripF = f :: rs :=
      map_self_of_mem fun x hx => stripF_eq_self x (hpieces x hx).2
    have hfil : (f :: rs).filter (fun s => !s.isEmpty) = f :: rs := by
      rw [List.filter_eq_self]
      intro a ha
      rw [isEmpty_false_of_ne a (hpieces a ha).1]
      rfl
    obtain ⟨hjf, hnef, hokf⟩ := fold_sentences_spec (f :: rs) hpieces
    have hfold_ne := hnef (by simp)
    have hfold_empty :
        ((f :: rs).foldl (fun acc s => acc ++ sentChunks s) []).isEmpty
          = false := by
      cases hc : (f :: rs).foldl (fun acc s => acc ++ sentChunks s) [] with
      | nil => exact absurd hc hfold_ne
      | cons a b => rfl
    have heqS : split_into_sentences text
        = (f :: rs).foldl (fun acc s => acc ++ sentChunks s) [] := by
      simp only [split_into_sentences]
      rw [ht, heq', hmap, hfil, hfold_empty]
      simp only [Bool.false_eq_true, if_false]
    rw [heqS]
    refine ⟨hfold_ne, ?_, hokf⟩
    rw [hjf, hjoin]

/-! ### Claim theorems: C1, C6 -/

/-- C1.  For every input text, `split_into_sentences` returns a non-empty
ordered sequence of chunks, and re-joining the chunks with single spaces
reconstructs the whitespace-normalised original — `normWs`, which collapses
every whitespace run to a single space and trims both ends. -/
theorem split_reconstructs_normalised (text : List Char) :
    split_into_sentences text ≠ []
      ∧ joinSp (split_into_sentences text) = normWs text :=
  ⟨(split_into_sentences_master text).1,
    (split_into_sentences_master text).2.1⟩

/-- C6.  Every chunk produced by `split_into_sentences` has length at most
`MAX_CHUNK_CHARS = 200`, except possibly an oversized fallback chunk with no
internal clause separator — no comma, semicolon, en dash or em dash
immediately followed by whitespace — which is kept whole rather than
truncated or dropped. -/
theorem chunk_length_bound (text ch : List Char)
    (h : ch ∈ split_into_sentences text) :
    ch.length ≤ MAX_CHUNK_CHARS ∨ NoSep clauseSep ch :=
  (split_into_sentences_master text).2.2 ch h

/-- Witness for C6 at the input `"Hi."`, whose sole chunk is `"Hi."`. -/
theorem chunk_length_bound_witness :
    "Hi.".toList ∈ split_into_sentences "Hi.".toList
      ∧ ("Hi.".toList.length ≤ MAX_CHUNK_CHARS
          ∨ NoSep clauseSep "Hi.".toList) :=
  ⟨by decide, chunk_length_bound "Hi.".toList "Hi.".toList (by decide)⟩
